import Mathlib

/-!
Verification of the presentation layer of the media-catalogue repository:
the grid application (file loading, client-side filtering, date grouping,
header statistics) and the media card component (thumbnail selection,
hover-driven frame cycling, click-through to Google Drive, duration and
file-size formatting).  Each definition is a shallow embedding of the
corresponding JavaScript function; strings are Lean strings, JS numbers
that hold integral values are `Nat`/`Int`, fractional JS numbers are `ℚ`,
and nullable values are `Option`.
-/

/-! ### Data model

`MediaRecord`/`IndexDocument` as the presentation layer reads them. The
`creationDate` field stores the outcome of JS date parsing of the raw
value: `some t` is the millisecond timestamp `new Date(v).getTime()` when
that is not `NaN`, `none` models an invalid date. -/

structure FileMetadata where
  creationDate : Option Int
  duration : Option ℚ
  fileSize : Nat
  resolution : Option (Nat × Nat)
deriving DecidableEq

structure Thumbnails where
  main : Option String
  frames : List String
deriving DecidableEq

structure GoogleDrive where
  url : String
deriving DecidableEq

structure MediaFile where
  id : String
  type : String
  fileName : String
  relativePath : String
  metadata : FileMetadata
  thumbnails : Thumbnails
  googleDrive : Option GoogleDrive
deriving DecidableEq

structure MediaStats where
  images : Nat
  videos : Nat
  audio : Nat
deriving DecidableEq

structure IndexMetadata where
  generatedAt : Option String
  sourceVolume : Option String
  stats : Option MediaStats
deriving DecidableEq

structure IndexDocument where
  metadata : Option IndexMetadata
  files : List MediaFile
deriving DecidableEq

/-! ### String helpers used by the search filter

`includesAux sub l` embeds JS `String.prototype.includes`: it scans the
haystack left to right checking for `sub` at each position. -/

/-- `l` begins with `sub` (models JS `startsWith`, used to state `includes`). -/
def beginsWith : List Char → List Char → Bool
  | [], _ => true
  | _ :: _, [] => false
  | a :: as, b :: bs => a == b && beginsWith as bs

/-- JS `haystack.includes(sub)` on character lists. -/
def includesAux (sub : List Char) : List Char → Bool
  | [] => sub.isEmpty
  | c :: t => beginsWith sub (c :: t) || includesAux sub t

/-- JS `s.includes(sub)` on Lean strings. -/
def strIncludes (s sub : String) : Bool :=
  includesAux sub.data s.data

/-! ### Client-side filtering (`App.jsx`, `groupedByDate` memo) -/

/-- The type filter: `if (filterType !== 'all') filtered.filter(f => f.type === filterType)`. -/
def filterByType (files : List MediaFile) (filterType : String) : List MediaFile :=
  if filterType ≠ "all" then files.filter (fun f => f.type == filterType) else files

/-- One file's test in the search filter: file name or relative path,
lowercased, contains the lowercased query. -/
def matchesQuery (f : MediaFile) (query : String) : Bool :=
  strIncludes f.fileName.toLower query || strIncludes f.relativePath.toLower query

/-- The search filter: `if (searchQuery) ... toLowerCase().includes(query)`;
an empty query is falsy in JS, so it filters nothing. -/
def filterByQuery (files : List MediaFile) (searchQuery : String) : List MediaFile :=
  if searchQuery ≠ "" then files.filter (fun f => matchesQuery f searchQuery.toLower)
  else files

/-- The files retained for display: the type filter then the search filter,
exactly as the memo computes `filtered`. -/
def filteredFiles (files : List MediaFile) (filterType searchQuery : String) :
    List MediaFile :=
  filterByQuery (filterByType files filterType) searchQuery

/-! ### Date grouping and ordering (`App.jsx`, `groupedByDate` memo)

A group key is `some d` for the UTC calendar day `d` (the day number that
`toISOString().split('T')[0]` denotes, i.e. `⌊t / 86400000⌋` for timestamp
`t`) and `none` for the literal key `'unknown-date'`. -/

/-- Milliseconds per day, the divisor taking a timestamp to its UTC day. -/
def msPerDay : Int := 86400000

/-- The grouping key of one file: its UTC calendar day, or `none` when the
creation date does not parse (`isNaN(date.getTime())`). -/
def dateKey (f : MediaFile) : Option Int :=
  f.metadata.creationDate.map (fun t => Int.fdiv t msPerDay)

/-- Append `f` to the group keyed `k`, creating the group at the end on a
first occurrence — the object-insertion order of the JS `reduce`. -/
def insertFile (acc : List (Option Int × List MediaFile)) (k : Option Int)
    (f : MediaFile) : List (Option Int × List MediaFile) :=
  match acc with
  | [] => [(k, [f])]
  | (k', fs) :: rest =>
    if k' = k then (k', fs ++ [f]) :: rest else (k', fs) :: insertFile rest k f

/-- The `reduce` that groups the filtered files by date key. -/
def groupFiles (files : List MediaFile) : List (Option Int × List MediaFile) :=
  files.foldl (fun acc f => insertFile acc (dateKey f) f) []

/-- The sort comparator on keys: `'unknown-date'` sorts after everything,
and two real dates sort descending (`new Date(b) - new Date(a)`). -/
def keyLE : Option Int → Option Int → Bool
  | _, none => true
  | none, some _ => false
  | some a, some b => b ≤ a

/-- Insert one keyed group into an already sorted list of groups. -/
def insertSorted (p : Option Int × List MediaFile) :
    List (Option Int × List MediaFile) → List (Option Int × List MediaFile)
  | [] => [p]
  | q :: rest => if keyLE p.1 q.1 then p :: q :: rest else q :: insertSorted p rest

/-- Sort the groups by the key comparator (the keys are pairwise distinct,
so any comparison sort — here insertion sort — yields the JS result). -/
def sortGroups (l : List (Option Int × List MediaFile)) :
    List (Option Int × List MediaFile) :=
  l.foldr insertSorted []

/-- The memo's value: filter, group by date key, then order the groups with
dates descending and the unknown-date group last. -/
def groupedByDate (files : List MediaFile) (filterType searchQuery : String) :
    List (Option Int × List MediaFile) :=
  sortGroups (groupFiles (filteredFiles files filterType searchQuery))

/-! ### Header statistics (`App.jsx`) -/

/-- `mediaData.metadata?.stats || { images: 0, videos: 0, audio: 0 }`. -/
def displayedStats (d : IndexDocument) : MediaStats :=
  match d.metadata with
  | some m =>
    match m.stats with
    | some s => s
    | none => { images := 0, videos := 0, audio := 0 }
  | none => { images := 0, videos := 0, audio := 0 }

/-- `Object.values(groupedByDate).reduce((sum, files) => sum + files.length, 0)`. -/
def totalFiles (d : IndexDocument) (filterType searchQuery : String) : Nat :=
  (groupedByDate d.files filterType searchQuery).foldl
    (fun sum p => sum + p.2.length) 0

/-! ### Index fetch with cache busting (`App.jsx`, the load effect) -/

/-- The decimal digit character of `d < 10`. -/
def digitChar (d : Nat) : Char := Char.ofNat (48 + d)

/-- The decimal numeral of `n`, as JS renders a nonnegative integral
number in a template literal. -/
def jsNatRepr (n : Nat) : String :=
  if n = 0 then "0"
  else String.mk (((Nat.digits 10 n).reverse).map digitChar)

/-- The request URL built by the load effect:
`fetch(BASE_URL + 'media_index.json?t=' + Date.now())`, where `now` is the
millisecond clock value at the invocation. -/
def fetchUrl (baseUrl : String) (now : Nat) : String :=
  baseUrl ++ "media_index.json?t=" ++ jsNatRepr now

/-! ### Duration formatting (`MediaCard.jsx`, `formatDuration`) -/

/-- JS truncation toward zero, as the `%` operator uses. -/
def jsTrunc (q : ℚ) : Int := if 0 ≤ q then ⌊q⌋ else -⌊-q⌋

/-- The JS `%` operator on numbers: `a - b * trunc(a / b)`. -/
def jsMod (a b : ℚ) : ℚ := a - b * jsTrunc (a / b)

/-- `String(x).padStart(2, '0')`. -/
def padStart2 (s : String) : String :=
  String.mk (List.replicate (2 - s.data.length) '0') ++ s

/-- `formatDuration(seconds)`: empty for a falsy duration (`null`,
`undefined` or `0`), else `H:MM:SS` when at least one hour, `M:SS`
otherwise, every component floored. -/
def formatDuration (seconds : Option ℚ) : String :=
  match seconds with
  | none => ""
  | some s =>
    if s = 0 then ""
    else
      let hours : Int := ⌊s / 3600⌋
      let minutes : Int := ⌊jsMod s 3600 / 60⌋
      let secs : Int := ⌊jsMod s 60⌋
      if hours > 0 then
        toString hours ++ ":" ++ padStart2 (toString minutes) ++ ":" ++
          padStart2 (toString secs)
      else
        toString minutes ++ ":" ++ padStart2 (toString secs)

/-! ### File-size formatting (`MediaCard.jsx`, `formatFileSize`)

The JS function computes `i = Math.floor(Math.log(bytes) / Math.log(1024))`
— under real-number semantics this is `Nat.log 1024 bytes` for a positive
integer byte count — and renders `Math.round(bytes / 1024**i * 100) / 100`
followed by `sizes[i]`.  The numeral-to-string step of JS float printing is
kept abstract: the embedding returns the rounded amount and the looked-up
unit (`none` models the out-of-table `undefined`). -/

/-- JS `Math.round`: half-way cases round toward positive infinity. -/
def jsRound (q : ℚ) : Int := ⌊q + 1 / 2⌋

/-- The unit table `['B', 'KB', 'MB', 'GB']`. -/
def sizeUnits : List String := ["B", "KB", "MB", "GB"]

structure SizeDisplay where
  amount : ℚ
  unit : Option String
deriving DecidableEq

/-- `formatFileSize(bytes)` as amount plus unit; `bytes = 0` yields the
literal `'0 B'` branch. -/
def formatFileSize (bytes : Nat) : SizeDisplay :=
  if bytes = 0 then { amount := 0, unit := some ("B") }
  else
    let i := Nat.log 1024 bytes
    { amount := (jsRound ((bytes : ℚ) / 1024 ^ i * 100) : ℚ) / 100,
      unit := sizeUnits[i]? }

/-! ### Thumbnail selection and rendering (`MediaCard.jsx`) -/

/-- The selected thumbnail:
`file.type === 'video' && frames.length > 0 ? frames[currentFrame] : main`
(an out-of-range index yields JS `undefined`, here `none`). -/
def selectThumbnail (f : MediaFile) (currentFrame : Nat) : Option String :=
  if f.type == "video" && f.thumbnails.frames.length > 0 then
    f.thumbnails.frames[currentFrame]?
  else f.thumbnails.main

/-- What the thumbnail area renders: an `<img>` or the type-icon fallback. -/
inductive ThumbView where
  | img : String → ThumbView
  | placeholder : ThumbView
deriving DecidableEq

/-- `thumbnail ? <img .../> : <placeholder/>` — JS truthiness, so `null`,
`undefined` and the empty string all fall back to the placeholder. -/
def renderThumb : Option String → ThumbView
  | some s => if s ≠ "" then ThumbView.img s else ThumbView.placeholder
  | none => ThumbView.placeholder

/-! ### Click-through to Google Drive (`MediaCard.jsx`) -/

/-- JS `s.trim()`: drop whitespace from both ends. -/
def jsTrim (s : String) : String :=
  String.mk ((s.data.dropWhile Char.isWhitespace).reverse.dropWhile
    Char.isWhitespace).reverse

/-- `file.googleDrive?.url && file.googleDrive.url.trim() !== ''`. -/
def hasDriveUrl (f : MediaFile) : Bool :=
  match f.googleDrive with
  | some g => !(g.url == "") && !(jsTrim g.url == "")
  | none => false

/-- `handleClick`: `some url` is the `window.open(url, '_blank', ...)` call,
`none` is no action. -/
def handleClick (f : MediaFile) : Option String :=
  if hasDriveUrl f then f.googleDrive.map (fun g => g.url) else none

/-! ### Hover-driven frame cycling (`MediaCard.jsx`, the effect)

The card is a small transition system over the `currentFrame` and
`isHovering` state.  `Event.tick` is one firing of the 500 ms interval
(active only while the effect's condition holds); `Event.hover b` is a
mouse enter/leave together with the effect re-run it triggers: when the
condition `isHovering && type === 'video' && frames.length > 0` fails, the
effect clears the interval and resets `currentFrame` to `0`.  `len` is
`file.thumbnails.frames.length` of a video card. -/

structure CardState where
  currentFrame : Nat
  isHovering : Bool
deriving DecidableEq

inductive Event where
  | tick : Event
  | hover : Bool → Event
deriving DecidableEq

/-- One transition of the card state. -/
def step (len : Nat) (s : CardState) : Event → CardState
  | Event.tick =>
    if s.isHovering && decide (0 < len) then
      { s with currentFrame := (s.currentFrame + 1) % len }
    else s
  | Event.hover b =>
    if b && decide (0 < len) then
      { currentFrame := s.currentFrame, isHovering := b }
    else
      { currentFrame := 0, isHovering := b }

/-- The initial card state (`useState(0)`, `useState(false)`). -/
def initCard : CardState := { currentFrame := 0, isHovering := false }

/-- The state after a sequence of events. -/
def run (len : Nat) (es : List Event) : CardState :=
  es.foldl (step len) initCard

/-! ### Helper lemmas -/

theorem beginsWith_iff : ∀ sub l : List Char, beginsWith sub l = true ↔ sub <+: l
  | [], l => by simp [beginsWith]
  | a :: as, [] => by simp [beginsWith]
  | a :: as, b :: bs => by
    simp [beginsWith, List.cons_prefix_cons, beginsWith_iff as bs, And.comm]

theorem includesAux_iff : ∀ (sub l : List Char), includesAux sub l = true ↔ sub <:+: l
  | sub, [] => by
    simp [includesAux, List.isEmpty_iff]
  | sub, c :: t => by
    rw [List.infix_cons_iff]
    simp [includesAux, beginsWith_iff, includesAux_iff sub t]

theorem strIncludes_iff (s sub : String) :
    strIncludes s sub = true ↔ sub.data <:+: s.data :=
  includesAux_iff sub.data s.data

/-! ### C2: the type filter -/

/-- C2: for a selected type filter among `image`, `video`, `audio`, the
files retained for display are exactly those whose `type` equals the
filter; the filter `all` retains every file. -/
theorem typeFilter_spec :
    (∀ (files : List MediaFile) (ft : String),
      ft = "image" ∨ ft = "video" ∨ ft = "audio" →
      ∀ x : MediaFile, x ∈ filteredFiles files ft "" ↔ x ∈ files ∧ x.type = ft)
    ∧ (∀ (files : List MediaFile) (x : MediaFile),
      x ∈ filteredFiles files "all" "" ↔ x ∈ files) := by
  constructor
  · intro files ft hft x
    have hne : ft ≠ "all" := by
      rcases hft with h | h | h <;> subst h <;> decide
    simp [filteredFiles, filterByQuery, filterByType, hne, List.mem_filter]
  · intro files x
    simp [filteredFiles, filterByQuery, filterByType]

/-! ### C3: the search filter -/

/-- C3: for a non-empty query, the files retained for display are exactly
those whose file name or relative path contains the query as a
case-insensitive substring (both sides lowercased); an empty query retains
every file. -/
theorem searchFilter_spec :
    (∀ (files : List MediaFile) (q : String), q ≠ "" →
      ∀ x : MediaFile, x ∈ filteredFiles files "all" q ↔
        x ∈ files ∧ (q.toLower.data <:+: x.fileName.toLower.data ∨
                     q.toLower.data <:+: x.relativePath.toLower.data))
    ∧ (∀ (files : List MediaFile) (x : MediaFile),
      x ∈ filteredFiles files "all" "" ↔ x ∈ files) := by
  constructor
  · intro files q hq x
    simp [filteredFiles, filterByQuery, filterByType, hq, List.mem_filter,
      matchesQuery, strIncludes_iff]
  · intro files x
    simp [filteredFiles, filterByQuery, filterByType]

/-! ### C4: thumbnail selection -/

/-- C4: a video with a non-empty frame sequence shows
`thumbnails.frames[currentFrame]`; every other record shows
`thumbnails.main`; and an absent selected thumbnail renders the type-icon
placeholder instead of an image element. -/
theorem selectThumbnail_spec :
    ∀ (f : MediaFile) (i : Nat),
      (f.type = "video" → f.thumbnails.frames ≠ [] →
        selectThumbnail f i = f.thumbnails.frames[i]?)
      ∧ ((f.type ≠ "video" ∨ f.thumbnails.frames = []) →
        selectThumbnail f i = f.thumbnails.main)
      ∧ (selectThumbnail f i = none →
        renderThumb (selectThumbnail f i) = ThumbView.placeholder) := by
  intro f i
  refine ⟨?_, ?_, ?_⟩
  · intro hv hne
    simp [selectThumbnail, hv, List.length_pos.2 hne]
  · intro h
    rcases h with h | h
    · simp [selectThumbnail, h]
    · simp [selectThumbnail, h]
  · intro h
    rw [h]
    rfl

/-! ### C6: click-through to Google Drive -/

/-- C6: clicking a card opens the record's `googleDrive.url` in a new
browser context exactly when the field exists and is non-empty after
trimming whitespace; otherwise the click does nothing. -/
theorem handleClick_spec :
    ∀ f : MediaFile,
      (∀ g : GoogleDrive, f.googleDrive = some g →
        (jsTrim g.url ≠ "" → handleClick f = some g.url)
        ∧ (jsTrim g.url = "" → handleClick f = none))
      ∧ (f.googleDrive = none → handleClick f = none) := by
  intro f
  constructor
  · intro g hg
    constructor
    · intro ht
      have hne : g.url ≠ "" := by
        intro h
        apply ht
        rw [h]
        rfl
      simp [handleClick, hasDriveUrl, hg, hne, ht]
    · intro ht
      simp [handleClick, hasDriveUrl, hg, ht]
  · intro h
    simp [handleClick, hasDriveUrl, h]

/-! ### C10: header statistics fall-back and total count -/

theorem foldl_add_length (l : List (Option Int × List MediaFile)) (n : Nat) :
    l.foldl (fun sum p => sum + p.2.length) n =
      n + (l.map (fun p => p.2.length)).sum := by
  induction l generalizing n with
  | nil => simp
  | cons p rest ih => simp [ih, Nat.add_assoc]

/-- C10: when the index document lacks `metadata` or `metadata.stats`, the
header statistics fall back to zero counts, and the rendered total file
count equals the sum of the sizes of the displayed date groups. -/
theorem headerStats_spec :
    ∀ (d : IndexDocument) (ft q : String),
      (d.metadata = none →
        displayedStats d = { images := 0, videos := 0, audio := 0 })
      ∧ (∀ m : IndexMetadata, d.metadata = some m → m.stats = none →
        displayedStats d = { images := 0, videos := 0, audio := 0 })
      ∧ totalFiles d ft q =
          ((groupedByDate d.files ft q).map (fun p => p.2.length)).sum := by
  intro d ft q
  refine ⟨?_, ?_, ?_⟩
  · intro h
    simp [displayedStats, h]
  · intro m hm hs
    simp [displayedStats, hm, hs]
  · rw [totalFiles, foldl_add_length]
    simp

/-! ### C9: file-size formatting -/

/-- C9: `formatFileSize 0` is the literal `'0 B'`; every byte count below
`1024 ^ 4` gets an amount with two decimals and a unit drawn from the
table `['B', 'KB', 'MB', 'GB']`; at `1024 ^ 4` and beyond the unit index
runs off the table, so the looked-up unit is JS `undefined`. -/
theorem formatFileSize_spec :
    (formatFileSize 0 = { amount := 0, unit := some ("B") })
    ∧ (∀ b : Nat, 1 ≤ b → b < 1024 ^ 4 →
        (formatFileSize b).unit ∈
          [some ("B"), some ("KB"), some ("MB"), some ("GB")]
        ∧ ∃ z : Int, (formatFileSize b).amount = (z : ℚ) / 100)
    ∧ (∀ b : Nat, 1024 ^ 4 ≤ b → (formatFileSize b).unit = none) := by
  refine ⟨rfl, ?_, ?_⟩
  · intro b h1 h4
    have hb0 : b ≠ 0 := by omega
    have hlog : Nat.log 1024 b < 4 :=
      (Nat.lt_pow_iff_log_lt (by norm_num) hb0).1 h4
    constructor
    · simp only [formatFileSize, if_neg hb0]
      set i := Nat.log 1024 b with hi
      interval_cases i <;> simp [sizeUnits]
    · exact ⟨jsRound ((b : ℚ) / 1024 ^ Nat.log 1024 b * 100),
        by simp [formatFileSize, if_neg hb0]⟩
  · intro b hb
    have hb0 : b ≠ 0 := by
      have : 0 < 1024 ^ 4 := by norm_num
      omega
    have hlog : 4 ≤ Nat.log 1024 b :=
      (Nat.pow_le_iff_le_log (by norm_num) hb0).1 hb
    simp only [formatFileSize, if_neg hb0]
    apply List.getElem?_eq_none
    simp only [sizeUnits, List.length_cons, List.length_nil]
    omega

/-! ### C5: hover-driven frame cycling -/

theorem step_inv (len : Nat) (s : CardState) (e : Event)
    (h1 : s.currentFrame < max len 1)
    (h2 : s.isHovering = false → s.currentFrame = 0) :
    (step len s e).currentFrame < max len 1 ∧
      ((step len s e).isHovering = false → (step len s e).currentFrame = 0) := by
  cases e with
  | tick =>
    simp only [step]
    split
    · next hcond =>
      rw [Bool.and_eq_true, decide_eq_true_eq] at hcond
      refine ⟨?_, ?_⟩
      · show (s.currentFrame + 1) % len < max len 1
        have := Nat.mod_lt (s.currentFrame + 1) hcond.2
        omega
      · intro hh
        have hb : s.isHovering = false := hh
        rw [hcond.1] at hb
        cases hb
    · exact ⟨h1, h2⟩
  | hover b =>
    simp only [step]
    split
    · next hcond =>
      rw [Bool.and_eq_true, decide_eq_true_eq] at hcond
      refine ⟨h1, ?_⟩
      intro hh
      have hb : b = false := hh
      rw [hcond.1] at hb
      cases hb
    · refine ⟨?_, fun _ => rfl⟩
      show (0 : Nat) < max len 1
      omega

theorem run_inv (len : Nat) (es : List Event) :
    (run len es).currentFrame < max len 1 ∧
      ((run len es).isHovering = false → (run len es).currentFrame = 0) := by
  have main : ∀ (es : List Event) (s : CardState),
      s.currentFrame < max len 1 → (s.isHovering = false → s.currentFrame = 0) →
      (es.foldl (step len) s).currentFrame < max len 1 ∧
        ((es.foldl (step len) s).isHovering = false →
          (es.foldl (step len) s).currentFrame = 0) := by
    intro es
    induction es with
    | nil => intro s h1 h2; exact ⟨h1, h2⟩
    | cons e rest ih =>
      intro s h1 h2
      have := step_inv len s e h1 h2
      exact ih (step len s e) this.1 this.2
  exact main es initCard (by simp [initCard]) (fun _ => rfl)

/-- C5: for a video card with `len > 0` preview frames, after any sequence
of hover changes and interval ticks the frame index stays below `len`, it
is `0` whenever the card is not hovered, and each tick while hovering
advances it cyclically modulo `len`. -/
theorem frameCycling_spec :
    ∀ (len : Nat) (es : List Event),
      (0 < len → (run len es).currentFrame < len)
      ∧ ((run len es).isHovering = false → (run len es).currentFrame = 0)
      ∧ (∀ s : CardState, s.isHovering = true → 0 < len →
          (step len s Event.tick).currentFrame = (s.currentFrame + 1) % len) := by
  intro len es
  refine ⟨?_, (run_inv len es).2, ?_⟩
  · intro hlen
    have := (run_inv len es).1
    omega
  · intro s hh hlen
    have : (s.isHovering && decide (0 < len)) = true := by simp [hh, hlen]
    simp [step, this]

/-! ### C7: cache-busting fetch URL -/

/-- The big-endian decimal digit list of `n` (`[0]` for zero). -/
def decDigits (n : Nat) : List Nat :=
  if n = 0 then [0] else (Nat.digits 10 n).reverse

theorem digitChar_inj {a b : Nat} (ha : a < 10) (hb : b < 10)
    (h : digitChar a = digitChar b) : a = b := by
  interval_cases a <;> interval_cases b <;> revert h <;> decide

theorem map_digitChar_inj : ∀ {l1 l2 : List Nat},
    (∀ d ∈ l1, d < 10) → (∀ d ∈ l2, d < 10) →
    l1.map digitChar = l2.map digitChar → l1 = l2
  | [], [], _, _, _ => rfl
  | [], _ :: _, _, _, h => by cases h
  | _ :: _, [], _, _, h => by cases h
  | a :: as, b :: bs, h1, h2, h => by
    rw [List.map_cons, List.map_cons, List.cons_eq_cons] at h
    rw [List.cons_eq_cons]
    exact ⟨digitChar_inj (h1 a (by simp)) (h2 b (by simp)) h.1,
      map_digitChar_inj (fun d hd => h1 d (by simp [hd]))
        (fun d hd => h2 d (by simp [hd])) h.2⟩

theorem decDigits_lt (n : Nat) : ∀ d ∈ decDigits n, d < 10 := by
  intro d hd
  rw [decDigits] at hd
  split at hd
  · simp at hd
    omega
  · rw [List.mem_reverse] at hd
    exact Nat.digits_lt_base (by norm_num) hd

theorem decDigits_inj {m n : Nat} (h : decDigits m = decDigits n) : m = n := by
  by_cases hm : m = 0 <;> by_cases hn : n = 0
  · omega
  · exfalso
    rw [decDigits, decDigits, if_pos hm, if_neg hn] at h
    have hd : Nat.digits 10 n = [0] := by
      rw [← List.reverse_reverse (Nat.digits 10 n), ← h]
      rfl
    have := Nat.ofDigits_digits 10 n
    rw [hd] at this
    simp [Nat.ofDigits] at this
    exact hn this.symm
  · exfalso
    rw [decDigits, decDigits, if_neg hm, if_pos hn] at h
    have hd : Nat.digits 10 m = [0] := by
      rw [← List.reverse_reverse (Nat.digits 10 m), h]
      rfl
    have := Nat.ofDigits_digits 10 m
    rw [hd] at this
    simp [Nat.ofDigits] at this
    exact hm this.symm
  · rw [decDigits, decDigits, if_neg hm, if_neg hn] at h
    have hd := List.reverse_injective h
    have h1 := Nat.ofDigits_digits 10 m
    have h2 := Nat.ofDigits_digits 10 n
    rw [← h1, ← h2, hd]

theorem jsNatRepr_eq (n : Nat) :
    jsNatRepr n = String.mk ((decDigits n).map digitChar) := by
  rw [jsNatRepr, decDigits]
  split
  · rfl
  · rfl

theorem jsNatRepr_inj {m n : Nat} (h : jsNatRepr m = jsNatRepr n) : m = n := by
  rw [jsNatRepr_eq, jsNatRepr_eq] at h
  have hd : (decDigits m).map digitChar = (decDigits n).map digitChar :=
    congrArg String.data h
  exact decDigits_inj (map_digitChar_inj (decDigits_lt m) (decDigits_lt n) hd)

theorem strData_append (a b : String) : (a ++ b).data = a.data ++ b.data := by
  cases a
  cases b
  rfl

/-- C7: the load effect appends the millisecond clock value as a
cache-busting query parameter, so fetches at two different times use two
distinct request URLs. -/
theorem fetchUrl_spec :
    ∀ (baseUrl : String) (t1 t2 : Nat), t1 ≠ t2 →
      fetchUrl baseUrl t1 ≠ fetchUrl baseUrl t2 := by
  intro baseUrl t1 t2 hne h
  apply hne
  apply jsNatRepr_inj
  have hd := congrArg String.data h
  rw [fetchUrl, fetchUrl, strData_append, strData_append, strData_append,
    strData_append, List.append_assoc, List.append_assoc] at hd
  have := List.append_cancel_left hd
  have := List.append_cancel_left this
  cases hr1 : jsNatRepr t1
  cases hr2 : jsNatRepr t2
  rw [hr1, hr2] at this
  exact congrArg String.mk this

/-- Witness for C7 at a concrete input: times `1` and `2` give different
URLs. -/
theorem fetchUrl_spec_witness :
    fetchUrl ("/") 1 ≠ fetchUrl ("/") 2 :=
  fetchUrl_spec ("/") 1 2 (by decide)

/-! ### C8: duration formatting -/

theorem intFloor_eq_natFloor (s : ℚ) (h : 0 ≤ s) : ⌊s⌋ = (⌊s⌋₊ : ℤ) := by
  rw [← Int.floor_toNat s]
  exact (Int.toNat_of_nonneg (Int.floor_nonneg.2 h)).symm

theorem jsMod_eq (s : ℚ) (h : 0 ≤ s) (n : Nat) (hn : 0 < n) :
    jsMod s n = s - n * ⌊s / n⌋ := by
  have hq : (0:ℚ) ≤ s / n := div_nonneg h (by positivity)
  rw [jsMod, jsTrunc, if_pos hq]

theorem jsMod_nonneg (s : ℚ) (h : 0 ≤ s) (n : Nat) (hn : 0 < n) :
    0 ≤ jsMod s n := by
  rw [jsMod_eq s h n hn]
  have hn' : (0:ℚ) < n := by exact_mod_cast hn
  have h1 : ((⌊s / (n:ℚ)⌋ : ℚ)) ≤ s / n := Int.floor_le _
  have h2 : (n:ℚ) * (⌊s / (n:ℚ)⌋ : ℚ) ≤ (n:ℚ) * (s / n) :=
    mul_le_mul_of_nonneg_left h1 (le_of_lt hn')
  have h3 : (n:ℚ) * (s / n) = s := by field_simp
  linarith

theorem jsMod_floor (s : ℚ) (h : 0 ≤ s) (n : Nat) (hn : 0 < n) :
    ⌊jsMod s n⌋ = ((⌊s⌋₊ % n : Nat) : ℤ) := by
  rw [jsMod_eq s h n hn]
  have hq : (0:ℚ) ≤ s / n := div_nonneg h (by positivity)
  have hfl : ((n:ℚ) * (⌊s / (n:ℚ)⌋ : ℚ)) = (((n : ℤ) * ⌊s / (n:ℚ)⌋ : ℤ) : ℚ) := by
    push_cast
    ring
  rw [hfl, Int.floor_sub_int]
  have h1 : ⌊s / (n:ℚ)⌋ = ((⌊s⌋₊ / n : Nat) : ℤ) := by
    rw [intFloor_eq_natFloor _ hq, Nat.floor_div_nat]
  rw [intFloor_eq_natFloor s h, h1]
  have hdm := Nat.div_add_mod ⌊s⌋₊ n
  have hdm' : ((n : ℤ) * ((⌊s⌋₊ / n : Nat) : ℤ) + ((⌊s⌋₊ % n : Nat) : ℤ)) = (⌊s⌋₊ : ℤ) := by
    exact_mod_cast hdm
  linarith

theorem jsMod_natFloor (s : ℚ) (h : 0 ≤ s) (n : Nat) (hn : 0 < n) :
    ⌊jsMod s n⌋₊ = ⌊s⌋₊ % n := by
  have h1 := jsMod_floor s h n hn
  rw [intFloor_eq_natFloor (jsMod s n) (jsMod_nonneg s h n hn)] at h1
  exact_mod_cast h1

theorem jsMod60_floor (s : ℚ) (h : 0 ≤ s) :
    ⌊jsMod s 60⌋ = ((⌊s⌋₊ % 60 : Nat) : ℤ) := by
  have h60 : ((60:ℕ):ℚ) = (60:ℚ) := by norm_num
  rw [← h60]
  exact jsMod_floor s h 60 (by norm_num)

theorem jsMod3600_nonneg (s : ℚ) (h : 0 ≤ s) : 0 ≤ jsMod s 3600 := by
  have h36 : ((3600:ℕ):ℚ) = (3600:ℚ) := by norm_num
  rw [← h36]
  exact jsMod_nonneg s h 3600 (by norm_num)

theorem jsMod3600_natFloor (s : ℚ) (h : 0 ≤ s) :
    ⌊jsMod s 3600⌋₊ = ⌊s⌋₊ % 3600 := by
  have h36 : ((3600:ℕ):ℚ) = (3600:ℚ) := by norm_num
  rw [← h36]
  exact jsMod_natFloor s h 3600 (by norm_num)

theorem floor_div60 (s : ℚ) (h : 0 ≤ s) :
    ⌊s / 60⌋ = ((⌊s⌋₊ / 60 : Nat) : ℤ) := by
  have h60 : ((60:ℕ):ℚ) = (60:ℚ) := by norm_num
  rw [← h60, intFloor_eq_natFloor _ (div_nonneg h (by positivity)),
    Nat.floor_div_nat]

theorem floor_div3600 (s : ℚ) (h : 0 ≤ s) :
    ⌊s / 3600⌋ = ((⌊s⌋₊ / 3600 : Nat) : ℤ) := by
  have h36 : ((3600:ℕ):ℚ) = (3600:ℚ) := by norm_num
  rw [← h36, intFloor_eq_natFloor _ (div_nonneg h (by positivity)),
    Nat.floor_div_nat]

theorem toString_intCast (n : Nat) : toString ((n : Nat) : Int) = toString n := rfl

theorem formatDuration_pos (s : ℚ) (h : s ≠ 0) :
    formatDuration (some s) =
      (if ⌊s / 3600⌋ > 0 then
        toString ⌊s / 3600⌋ ++ ":" ++ padStart2 (toString ⌊jsMod s 3600 / 60⌋) ++
          ":" ++ padStart2 (toString ⌊jsMod s 60⌋)
      else
        toString ⌊jsMod s 3600 / 60⌋ ++ ":" ++ padStart2 (toString ⌊jsMod s 60⌋)) := by
  simp only [formatDuration, if_neg h]

/-- C8: `formatDuration` yields the empty string for an absent or zero
duration; a positive duration below one hour renders `M:SS` with the
seconds two-digit zero-padded; a duration of an hour or more renders
`H:MM:SS`; in all cases fractional seconds are truncated (components are
computed from `⌊s⌋₊`). -/
theorem formatDuration_spec :
    formatDuration none = ""
    ∧ formatDuration (some 0) = ""
    ∧ (∀ s : ℚ, 0 < s → s < 3600 →
        formatDuration (some s) =
          toString (⌊s⌋₊ / 60) ++ ":" ++ padStart2 (toString (⌊s⌋₊ % 60)))
    ∧ (∀ s : ℚ, 3600 ≤ s →
        formatDuration (some s) =
          toString (⌊s⌋₊ / 3600) ++ ":" ++
            padStart2 (toString (⌊s⌋₊ % 3600 / 60)) ++ ":" ++
            padStart2 (toString (⌊s⌋₊ % 60))) := by
  refine ⟨rfl, by simp [formatDuration], ?_, ?_⟩
  · intro s h0 hlt
    have hnn : 0 ≤ s := le_of_lt h0
    have hne : s ≠ 0 := ne_of_gt h0
    rw [formatDuration_pos s hne]
    have hfd : ⌊s / 3600⌋ = ((⌊s⌋₊ / 3600 : Nat) : ℤ) := floor_div3600 s hnn
    have hlt' : ⌊s⌋₊ < 3600 := by
      rw [Nat.floor_lt hnn]
      exact_mod_cast hlt
    have hdz : ⌊s⌋₊ / 3600 = 0 := Nat.div_eq_of_lt hlt'
    rw [if_neg (by rw [hfd, hdz]; norm_num)]
    have hmin : ⌊jsMod s 3600 / 60⌋ = ((⌊s⌋₊ / 60 : Nat) : ℤ) := by
      rw [floor_div60 (jsMod s 3600) (jsMod3600_nonneg s hnn),
        jsMod3600_natFloor s hnn, Nat.mod_eq_of_lt hlt']
    have hsec : ⌊jsMod s 60⌋ = ((⌊s⌋₊ % 60 : Nat) : ℤ) := jsMod60_floor s hnn
    rw [hmin, hsec, toString_intCast, toString_intCast]
  · intro s h36
    have hnn : 0 ≤ s := le_trans (by norm_num) h36
    have hne : s ≠ 0 := by
      intro h
      rw [h] at h36
      norm_num at h36
    rw [formatDuration_pos s hne]
    have hfd : ⌊s / 3600⌋ = ((⌊s⌋₊ / 3600 : Nat) : ℤ) := floor_div3600 s hnn
    have hge : 3600 ≤ ⌊s⌋₊ := Nat.le_floor (by exact_mod_cast h36)
    have hpos : 0 < ⌊s⌋₊ / 3600 := Nat.div_pos hge (by norm_num)
    rw [if_pos (by rw [hfd]; exact_mod_cast hpos)]
    have hmin : ⌊jsMod s 3600 / 60⌋ = ((⌊s⌋₊ % 3600 / 60 : Nat) : ℤ) := by
      rw [floor_div60 (jsMod s 3600) (jsMod3600_nonneg s hnn),
        jsMod3600_natFloor s hnn]
    have hsec : ⌊jsMod s 60⌋ = ((⌊s⌋₊ % 60 : Nat) : ℤ) := jsMod60_floor s hnn
    rw [hfd, hmin, hsec, toString_intCast, toString_intCast, toString_intCast]

/-! ### C1: grouping by calendar day, dates descending, unknown last -/

theorem insertFile_content (k : Option Int) (f : MediaFile) (hk : dateKey f = k) :
    ∀ acc, (∀ p ∈ acc, ∀ x ∈ p.2, dateKey x = p.1) →
      ∀ p ∈ insertFile acc k f, ∀ x ∈ p.2, dateKey x = p.1 := by
  intro acc
  induction acc with
  | nil =>
    intro _ p hp x hx
    simp only [insertFile, List.mem_singleton] at hp
    subst hp
    simp only [List.mem_singleton] at hx
    subst hx
    exact hk
  | cons q rest ih =>
    obtain ⟨k', fs⟩ := q
    intro hacc p hp x hx
    simp only [insertFile] at hp
    split at hp
    · next heq =>
      subst heq
      rcases List.mem_cons.1 hp with rfl | hp'
      · rcases List.mem_append.1 hx with hx' | hx'
        · exact hacc (k', fs) (by simp) x hx'
        · simp only [List.mem_singleton] at hx'
          subst hx'
          exact hk
      · exact hacc p (List.mem_cons_of_mem _ hp') x hx
    · rcases List.mem_cons.1 hp with rfl | hp'
      · exact hacc (k', fs) (by simp) x hx
      · exact ih (fun p hp => hacc p (List.mem_cons_of_mem _ hp)) p hp' x hx

theorem groupFiles_content (files : List MediaFile) :
    ∀ p ∈ groupFiles files, ∀ x ∈ p.2, dateKey x = p.1 := by
  have main : ∀ (fs : List MediaFile) (acc),
      (∀ p ∈ acc, ∀ x ∈ p.2, dateKey x = p.1) →
      ∀ p ∈ fs.foldl (fun acc f => insertFile acc (dateKey f) f) acc,
        ∀ x ∈ p.2, dateKey x = p.1 := by
    intro fs
    induction fs with
    | nil => intro acc h; exact h
    | cons f rest ih =>
      intro acc h
      exact ih _ (insertFile_content (dateKey f) f rfl acc h)
  exact main files [] (by simp)

theorem insertFile_flatten (k : Option Int) (f : MediaFile) :
    ∀ acc, ((insertFile acc k f).map Prod.snd).flatten.Perm
      ((acc.map Prod.snd).flatten ++ [f]) := by
  intro acc
  induction acc with
  | nil => simp [insertFile]
  | cons q rest ih =>
    obtain ⟨k', fs⟩ := q
    simp only [insertFile]
    split
    · simp only [List.map_cons, List.flatten_cons, List.append_assoc]
      exact List.Perm.append_left fs (List.perm_append_comm.trans (List.Perm.refl _))
    · simp only [List.map_cons, List.flatten_cons, List.append_assoc]
      exact List.Perm.append_left fs ih

theorem groupFiles_flatten (files : List MediaFile) :
    ((groupFiles files).map Prod.snd).flatten.Perm files := by
  have main : ∀ (fs : List MediaFile) (acc),
      ((fs.foldl (fun acc f => insertFile acc (dateKey f) f) acc).map
        Prod.snd).flatten.Perm ((acc.map Prod.snd).flatten ++ fs) := by
    intro fs
    induction fs with
    | nil => intro acc; simp
    | cons f rest ih =>
      intro acc
      refine (ih (insertFile acc (dateKey f) f)).trans ?_
      have h1 := insertFile_flatten (dateKey f) f acc
      have h2 := h1.append_right rest
      refine h2.trans ?_
      rw [List.append_assoc]
      rfl
  have := main files []
  simpa using this

theorem insertSorted_perm (p : Option Int × List MediaFile) :
    ∀ l, (insertSorted p l).Perm (p :: l) := by
  intro l
  induction l with
  | nil => simp [insertSorted]
  | cons q rest ih =>
    simp only [insertSorted]
    split
    · exact List.Perm.refl _
    · exact (ih.cons q).trans (List.Perm.swap p q rest)

theorem sortGroups_perm : ∀ l, (sortGroups l).Perm l := by
  intro l
  induction l with
  | nil => simp [sortGroups]
  | cons p rest ih =>
    have h1 : sortGroups (p :: rest) = insertSorted p (sortGroups rest) := rfl
    rw [h1]
    exact (insertSorted_perm p (sortGroups rest)).trans (ih.cons p)

theorem perm_flatten_map {l1 l2 : List (Option Int × List MediaFile)}
    (h : l1.Perm l2) :
    ((l1.map Prod.snd).flatten).Perm ((l2.map Prod.snd).flatten) := by
  induction h with
  | nil => exact List.Perm.refl _
  | cons x _ ih =>
    simp only [List.map_cons, List.flatten_cons]
    exact List.Perm.append_left x.2 ih
  | swap x y l =>
    simp only [List.map_cons, List.flatten_cons, ← List.append_assoc]
    exact List.Perm.append_right _ List.perm_append_comm
  | trans _ _ ih1 ih2 => exact ih1.trans ih2

theorem keyLE_total (a b : Option Int) : keyLE a b = true ∨ keyLE b a = true := by
  cases a <;> cases b <;> simp [keyLE]
  omega

theorem keyLE_trans {a b c : Option Int} (h1 : keyLE a b = true)
    (h2 : keyLE b c = true) : keyLE a c = true := by
  cases a <;> cases b <;> cases c <;> simp [keyLE] at *
  omega

theorem mem_insertSorted {p q : Option Int × List MediaFile}
    {l : List (Option Int × List MediaFile)} (h : q ∈ insertSorted p l) :
    q = p ∨ q ∈ l := by
  have := (insertSorted_perm p l).mem_iff.1 h
  simpa using this

theorem insertSorted_sorted (p : Option Int × List MediaFile) :
    ∀ l, l.Pairwise (fun a b => keyLE a.1 b.1 = true) →
      (insertSorted p l).Pairwise (fun a b => keyLE a.1 b.1 = true) := by
  intro l
  induction l with
  | nil => intro _; simp [insertSorted]
  | cons q rest ih =>
    intro h
    rw [List.pairwise_cons] at h
    simp only [insertSorted]
    split
    · next hle =>
      rw [List.pairwise_cons]
      refine ⟨?_, List.pairwise_cons.2 h⟩
      intro x hx
      rcases List.mem_cons.1 hx with rfl | hx'
      · exact hle
      · exact keyLE_trans hle (h.1 x hx')
    · next hle =>
      rw [List.pairwise_cons]
      refine ⟨?_, ih h.2⟩
      intro x hx
      rcases mem_insertSorted hx with rfl | hx'
      · rcases keyLE_total x.1 q.1 with ht | ht
        · exact absurd ht hle
        · exact ht
      · exact h.1 x hx'

theorem sortGroups_sorted (l : List (Option Int × List MediaFile)) :
    (sortGroups l).Pairwise (fun a b => keyLE a.1 b.1 = true) := by
  induction l with
  | nil => simp [sortGroups]
  | cons p rest ih => exact insertSorted_sorted p (sortGroups rest) ih

theorem insertFile_keys (k : Option Int) (f : MediaFile) :
    ∀ acc, (insertFile acc k f).map Prod.fst =
      if k ∈ acc.map Prod.fst then acc.map Prod.fst
      else acc.map Prod.fst ++ [k] := by
  intro acc
  induction acc with
  | nil => simp [insertFile]
  | cons q rest ih =>
    obtain ⟨k', fs⟩ := q
    simp only [insertFile]
    split
    · next heq =>
      subst heq
      simp
    · next hne =>
      rw [List.map_cons, List.map_cons, ih]
      by_cases hmem : k ∈ rest.map Prod.fst
      · rw [if_pos hmem, if_pos (List.mem_cons_of_mem _ hmem)]
      · rw [if_neg hmem, if_neg ?_, List.cons_append]
        intro hk
        rcases List.mem_cons.1 hk with h | h
        · exact hne h.symm
        · exact hmem h

theorem nodup_append_singleton {l : List (Option Int)} {k : Option Int}
    (h : l.Nodup) (hk : k ∉ l) : (l ++ [k]).Nodup := by
  rw [List.nodup_append]
  refine ⟨h, by simp, ?_⟩
  intro a ha hb
  simp only [List.mem_singleton] at hb
  subst hb
  exact hk ha

theorem groupFiles_keys_nodup (files : List MediaFile) :
    ((groupFiles files).map Prod.fst).Nodup := by
  have main : ∀ (fs : List MediaFile) (acc),
      (acc.map Prod.fst).Nodup →
      ((fs.foldl (fun acc f => insertFile acc (dateKey f) f) acc).map
        Prod.fst).Nodup := by
    intro fs
    induction fs with
    | nil => intro acc h; exact h
    | cons f rest ih =>
      intro acc h
      apply ih
      rw [insertFile_keys]
      split
      · exact h
      · next hk => exact nodup_append_singleton h hk
  exact main files [] (by simp)

/-- C1: the rendered grid partitions the filtered files into groups of one
UTC calendar day each (key `none` standing for `'unknown-date'`): every
file sits in the group of its own date key, the group keys are pairwise
distinct and appear in comparator order — dates descending with the
unknown-date group last (`keyLE`) — and the groups together carry exactly
the filtered files. -/
theorem groupedByDate_spec :
    ∀ (files : List MediaFile) (ft q : String),
      (∀ p ∈ groupedByDate files ft q, ∀ x ∈ p.2, dateKey x = p.1)
      ∧ ((groupedByDate files ft q).map Prod.fst).Pairwise
          (fun a b => keyLE a b = true)
      ∧ ((groupedByDate files ft q).map Prod.fst).Nodup
      ∧ (((groupedByDate files ft q).map Prod.snd).flatten).Perm
          (filteredFiles files ft q) := by
  intro files ft q
  refine ⟨?_, ?_, ?_, ?_⟩
  · intro p hp x hx
    have hpG : p ∈ groupFiles (filteredFiles files ft q) :=
      (sortGroups_perm _).mem_iff.1 hp
    exact groupFiles_content _ p hpG x hx
  · rw [List.pairwise_map]
    exact sortGroups_sorted (groupFiles (filteredFiles files ft q))
  · have h1 := groupFiles_keys_nodup (filteredFiles files ft q)
    have hperm := (sortGroups_perm (groupFiles (filteredFiles files ft q))).map
      Prod.fst
    exact hperm.nodup_iff.2 h1
  · exact (perm_flatten_map (sortGroups_perm _)).trans (groupFiles_flatten _)
